import Mathlib

/-!
Verification development for the `bevy_utilitarian` motion/interpolation
library (piecewise-linear parametric curves, wrap/clamp-aware pitch-yaw
angular coordinates, and tick-driven steppers).

Shallow embedding conventions:
* Rust `f32` values are idealized as exact rationals `ℚ`; every arithmetic
  operation of the source is translated to the corresponding exact operation.
* Code paths that panic (failed `assert!` inside `f32::clamp`, explicit
  `panic!`, `usize` underflow followed by an out-of-bounds index) are
  modelled by `Option`/`none`.
* `usize` loop/index arithmetic is modelled on `ℕ`, except that the one
  place where the source can underflow a `usize` subtraction is modelled
  explicitly as a panic (`none`) rather than by truncating subtraction.
-/

namespace BevyUtil

/-- The exact rational value of `std::f32::consts::PI`
(IEEE-754 single precision, bit pattern 0x40490FDB). -/
def pi32 : ℚ := 13176795 / 4194304

/-- The in-range body of Rust `f32::clamp(self, min, max)` (the code that
runs once the `assert!(min <= max)` has passed): `if self < min { min }
else if self > max { max } else { self }`. -/
def rclamp (x mn mx : ℚ) : ℚ := if x < mn then mn else if mx < x then mx else x

/-- Rust `f32::clamp(self, min, max)` including its `assert!(min <= max)`:
the assertion failure (panic) is modelled as `none`. -/
def rustClamp (x mn mx : ℚ) : Option ℚ := if mn ≤ mx then some (rclamp x mn mx) else none

/-- Rust `f32::rem_euclid(self, rhs)` for a positive modulus, in exact
arithmetic: the least non-negative representative of `a` modulo `b`
(`r = a % b; if r < 0 { r + b.abs() } else { r }` agrees with
`a - b * ⌊a / b⌋` for every `b > 0`). -/
def remEuclid (a b : ℚ) : ℚ := a - b * ⌊a / b⌋

/-- Rust `f32::signum` restricted to exact rationals (no NaN and no `-0.0`
exist in the model): `1` for `x ≥ 0` (sign bit clear), `-1` for `x < 0`. -/
def rsignum (x : ℚ) : ℚ := if x < 0 then -1 else 1

/-- `geometric::pitchyaw::PitchYaw`: rotation without roll component,
fields `p` (pitch) and `y` (yaw), in radians. -/
structure PitchYaw where
  p : ℚ
  y : ℚ
deriving DecidableEq, Repr

namespace PitchYaw

/-- `PitchYaw::new(u, v)` — note the source stores `y: u, p: v`. -/
def new (u v : ℚ) : PitchYaw := { y := u, p := v }

/-- `PitchYaw::normalize`: clamp pitch to `[-PI/2, PI/2]`, wrap yaw via
`(y + PI).rem_euclid(2*PI) - PI`. The pitch clamp's `assert!(min <= max)`
always passes (`-PI/2 ≤ PI/2`), so the clamp is embedded by its in-range
branch `rclamp`. -/
def normalize (s : PitchYaw) : PitchYaw :=
  { p := rclamp s.p (-(pi32 / 2)) (pi32 / 2)
    y := remEuclid (s.y + pi32) (2 * pi32) - pi32 }

/-- `PitchYaw::sub_pitchyaw`: pitch is the plain difference, yaw is the
wrapped difference `(self.y - other.y + PI).rem_euclid(2*PI) - PI`. -/
def sub_pitchyaw (s other : PitchYaw) : PitchYaw :=
  PitchYaw.new (remEuclid (s.y - other.y + pi32) (2 * pi32) - pi32) (s.p - other.p)

/-- `PitchYaw::step_toward(target, dangle)`. The source initializes
`out = PitchYaw::default()` and then overwrites both fields on every path,
so the default values never reach `normalize`. -/
def step_toward (s target : PitchYaw) (dangle : ℚ) : PitchYaw :=
  let delta := target.sub_pitchyaw s
  let outY := if |delta.y| < dangle then target.y else s.y + dangle * rsignum delta.y
  let outP := if |delta.p| < dangle then target.p else s.p + dangle * rsignum delta.p
  (PitchYaw.mk outP outY).normalize

end PitchYaw

/-- `geometric::pitchyawclamped::PitchYawClamped`: rotation without roll,
hard-clamped on both axes, carrying its own per-instance clamp bounds. -/
structure PitchYawClamped where
  p : ℚ
  y : ℚ
  clamp_p : ℚ
  clamp_y : ℚ
deriving DecidableEq, Repr

namespace PitchYawClamped

/-- `PitchYawClamped::new_with_clamps(u, v, clamp_p, clamp_y)` — the source
stores `y: u, p: v`. -/
def new_with_clamps (u v cp cy : ℚ) : PitchYawClamped :=
  { y := u, p := v, clamp_p := cp, clamp_y := cy }

/-- `PitchYawClamped::normalize`: clamp pitch to `[-clamp_p, clamp_p]` and
yaw to `[-clamp_y, clamp_y]` with Rust `f32::clamp`, keeping the clamp
fields (`..*self`). `f32::clamp` panics when `min > max` (negative clamp
bound), which is modelled as `none`. -/
def normalize (s : PitchYawClamped) : Option PitchYawClamped := do
  let p' ← rustClamp s.p (-s.clamp_p) s.clamp_p
  let y' ← rustClamp s.y (-s.clamp_y) s.clamp_y
  pure { s with p := p', y := y' }

/-- `PitchYawClamped::sub_pitchyaw`: plain component-wise subtraction on
both axes (`self.p -= other.p; self.y -= other.y`), keeping `self`'s
clamp bounds. -/
def sub_pitchyaw (s other : PitchYawClamped) : PitchYawClamped :=
  { s with p := s.p - other.p, y := s.y - other.y }

/-- `PitchYawClamped::step_toward(target, dangle)`. The source initializes
`out = PitchYawClamped::default()` and then overwrites all four fields
before calling `normalize` (`out.clamp_y = self.clamp_y;
out.clamp_p = self.clamp_p;`), so the default values never reach
`normalize`. -/
def step_toward (s target : PitchYawClamped) (dangle : ℚ) : Option PitchYawClamped :=
  let delta := target.sub_pitchyaw s
  let outY := if |delta.y| < dangle then target.y else s.y + dangle * rsignum delta.y
  let outP := if |delta.p| < dangle then target.p else s.p + dangle * rsignum delta.p
  PitchYawClamped.normalize
    { p := outP, y := outY, clamp_p := s.clamp_p, clamp_y := s.clamp_y }

/-- `impl Mul<f32> for PitchYawClamped`:
`new_with_clamps(self.y * rhs, self.p * rhs, self.clamp_p, self.clamp_y)`. -/
def mulScalar (s : PitchYawClamped) (rhs : ℚ) : PitchYawClamped :=
  PitchYawClamped.new_with_clamps (s.y * rhs) (s.p * rhs) s.clamp_p s.clamp_y

end PitchYawClamped

/-- `bevy::math::Vec2`, idealized over exact rationals. -/
structure Vec2 where
  x : ℚ
  y : ℚ
deriving DecidableEq, Repr

/-- `Vec2` component-wise addition. -/
def Vec2.add (a b : Vec2) : Vec2 := ⟨a.x + b.x, a.y + b.y⟩

/-- `Vec2` scaling by a scalar. -/
def Vec2.smul (a : Vec2) (rhs : ℚ) : Vec2 := ⟨a.x * rhs, a.y * rhs⟩

/-- `impl TickDerivative for PitchYawClamped` (`steppers/derivatives.rs`):
`new_with_clamps(y + d.x*dt, p + d.y*dt, clamp_p, clamp_y).normalize()`.
`dt` stands for `dt.as_secs_f32()`. -/
def PitchYawClamped.tickDerivative (s : PitchYawClamped) (dt : ℚ) (derivative : Vec2) :
    Option PitchYawClamped :=
  (PitchYawClamped.new_with_clamps (s.y + derivative.x * dt) (s.p + derivative.y * dt)
    s.clamp_p s.clamp_y).normalize

/-- `steppers::linear_stepper::LinearStepper<T>`. -/
structure LinearStepper (T : Type) where
  current : T
  target : T
  speed : ℚ
deriving DecidableEq

/-- `steppers::spring_stepper::SpringStepper<T, D>`. -/
structure SpringStepper (T D : Type) where
  current : T
  target : T
  velocity : D
  spring : ℚ
  damping : ℚ
deriving DecidableEq

/-- `steppers::spring_stepper::SPRING_MASS`. -/
def SPRING_MASS : ℚ := 1

namespace LinearStepperPY

/-- `impl TickInterpolator<PitchYaw> for LinearStepper<PitchYaw>`, `tick`:
`current = current.step_toward(target, speed * dt.as_secs_f32())`. -/
def tick (s : LinearStepper PitchYaw) (dt : ℚ) : LinearStepper PitchYaw :=
  { s with current := s.current.step_toward s.target (s.speed * dt) }

/-- `impl TickInterpolator<PitchYaw> for LinearStepper<PitchYaw>`,
`set_target`: `self.target = target.normalize()`. -/
def set_target (s : LinearStepper PitchYaw) (target : PitchYaw) : LinearStepper PitchYaw :=
  { s with target := target.normalize }

end LinearStepperPY

namespace LinearStepperPYC

/-- `impl TickInterpolator<PitchYawClamped> for LinearStepper<PitchYawClamped>`,
`tick`: `current = current.step_toward(target, speed * dt.as_secs_f32())`. -/
def tick (s : LinearStepper PitchYawClamped) (dt : ℚ) :
    Option (LinearStepper PitchYawClamped) := do
  let c ← s.current.step_toward s.target (s.speed * dt)
  pure { s with current := c }

/-- `impl TickInterpolator<PitchYawClamped> for LinearStepper<PitchYawClamped>`,
`set_target`: `self.target = target.normalize()`. -/
def set_target (s : LinearStepper PitchYawClamped) (target : PitchYawClamped) :
    Option (LinearStepper PitchYawClamped) := do
  let t' ← target.normalize
  pure { s with target := t' }

end LinearStepperPYC

namespace SpringStepperPYC

/-- `impl TickInterpolator<PitchYawClamped> for SpringStepper<PitchYawClamped, Vec2>`,
`tick`: damping and spring forces in the 2D tangent space, explicit Euler
velocity update, then `current = current.tick(dt, velocity)` (the
`TickDerivative` rule, which re-normalizes against `current`'s own clamp
bounds). -/
def tick (s : SpringStepper PitchYawClamped Vec2) (dt : ℚ) :
    Option (SpringStepper PitchYawClamped Vec2) := do
  let damping_force := s.velocity.smul (-s.damping)
  let spring_force_pyc := (s.target.sub_pitchyaw s.current).mulScalar s.spring
  let spring_force := Vec2.mk spring_force_pyc.y spring_force_pyc.p
  let velocity := s.velocity.add ((damping_force.add spring_force).smul (dt / SPRING_MASS))
  let c ← s.current.tickDerivative dt velocity
  pure { s with velocity := velocity, current := c }

/-- `impl TickInterpolator<PitchYawClamped> for SpringStepper<PitchYawClamped, Vec2>`,
`set_target`: `self.target = target;` (a plain assignment — no
normalization in the source). -/
def set_target (s : SpringStepper PitchYawClamped Vec2) (target : PitchYawClamped) :
    SpringStepper PitchYawClamped Vec2 :=
  { s with target := target }

end SpringStepperPYC

/-- `curves::linear::LinearSegment<P>` (`end` is a Lean keyword, so the
second field is named `endp`). -/
structure LinearSegment (P : Type) where
  start : P
  endp : P
deriving DecidableEq

/-- `LinearSegment::get_percent(percent)`: `start + (end - start) * percent`.
`Point` requires `Mul<f32, Output = Self>`, embedded as `HMul P ℚ P`. -/
def LinearSegment.get_percent {P : Type} [Add P] [Sub P] [HMul P ℚ P]
    (s : LinearSegment P) (percent : ℚ) : P :=
  s.start + (s.endp - s.start) * percent

/-- `curves::linear::LinearParamCurve<P>`: list of the `t` value at the
start of the segment, followed by the line segment. -/
structure LinearParamCurve (P : Type) where
  segments : List (ℚ × LinearSegment P)
deriving DecidableEq

/-- The loop body of Rust `[T]::binary_search_by` from `core`, with the
comparator `|(t2, _)| t2.partial_cmp(&t).unwrap()` already applied to the
list of segment start times (no NaN exists in the exact model, so the
`unwrap` never panics).  Rust iterates `while left < right` with
`mid = left + (right - left) / 2`; the loop strictly shrinks
`right - left` each iteration, so the fuel argument
(`ts.length + 1 > right - left` at the initial call) never reaches `0`
before the loop exits. -/
def bsGo (ts : List ℚ) (t : ℚ) : ℕ → ℕ → ℕ → Except ℕ ℕ
  | 0, left, _ => Except.error left
  | Nat.succ fuel, left, right =>
    if left < right then
      if ts.getD (left + (right - left) / 2) 0 < t then
        bsGo ts t fuel (left + (right - left) / 2 + 1) right
      else if t < ts.getD (left + (right - left) / 2) 0 then
        bsGo ts t fuel left (left + (right - left) / 2)
      else Except.ok (left + (right - left) / 2)
    else Except.error left

/-- Rust `[T]::binary_search_by` over the segment start times:
`Ok i` on an exact comparator match, `Err i` with the insertion point
otherwise. -/
def binarySearchBy (ts : List ℚ) (t : ℚ) : Except ℕ ℕ :=
  bsGo ts t (ts.length + 1) 0 ts.length

lemma bsGo_zero (ts : List ℚ) (t : ℚ) (left right : ℕ) :
    bsGo ts t 0 left right = Except.error left := rfl

lemma bsGo_succ (ts : List ℚ) (t : ℚ) (fuel left right : ℕ) :
    bsGo ts t (fuel + 1) left right =
    if left < right then
      if ts.getD (left + (right - left) / 2) 0 < t then
        bsGo ts t fuel (left + (right - left) / 2 + 1) right
      else if t < ts.getD (left + (right - left) / 2) 0 then
        bsGo ts t fuel left (left + (right - left) / 2)
      else Except.ok (left + (right - left) / 2)
    else Except.error left := rfl

namespace LinearParamCurve

variable {P : Type}

/-- `LinearParamCurve::new(segments)`: collect `(t, p1, p2)` triples into
`(t, LinearSegment)` pairs and `panic!` (modelled `none`) when fewer than
1 segment results. -/
def new (segs : List (ℚ × P × P)) : Option (LinearParamCurve P) :=
  let segments := segs.map (fun x => (x.1, LinearSegment.mk x.2.1 x.2.2))
  if segments.length < 1 then none else some ⟨segments⟩

/-- `LinearParamCurve::continuous_uniform(points)`: `panic!` (modelled
`none`) for fewer than 2 points; otherwise for each
`i in 0..points.len()-1` a segment from `points[i]` to `points[i+1]`
starting at `t = i / (points.len() - 1)` (the `usize`→`f32` casts and the
division are exact in the rational model). `points.zip points.tail`
enumerates exactly the consecutive pairs `(points[i], points[i+1])`. -/
def continuous_uniform (points : List P) : Option (LinearParamCurve P) :=
  if points.length < 2 then none
  else some ⟨(points.zip points.tail).enum.map
    (fun x => ((x.1 : ℚ) / ((points.length - 1 : ℕ) : ℚ), LinearSegment.mk x.2.1 x.2.2))⟩

/-- `LinearParamCurve::continuous(points)`: `panic!` (modelled `none`) for
fewer than 2 points; otherwise for each `i in 0..points.len()-1` a segment
from `points[i].1` to `points[i+1].1` starting at `t = points[i].0` (the
final point's time value is never read). -/
def continuous (points : List (ℚ × P)) : Option (LinearParamCurve P) :=
  if points.length < 2 then none
  else some ⟨(points.zip points.tail).map
    (fun x => (x.1.1, LinearSegment.mk x.1.2 x.2.2))⟩

/-- `LinearParamCurve::segment_start(segment_idx)`:
`self.segments[segment_idx].0`; an out-of-range index panics (`none`). -/
def segment_start (c : LinearParamCurve P) (i : ℕ) : Option ℚ :=
  (c.segments.get? i).map Prod.fst

/-- `LinearParamCurve::segment_length(segment_idx)`: `1 - t_start` for the
last segment, the gap to the next segment's start otherwise; an
out-of-range index panics (`none`). -/
def segment_length (c : LinearParamCurve P) (i : ℕ) : Option ℚ :=
  if i = c.segments.length - 1 then (c.segments.get? i).map (fun s => 1 - s.1)
  else do
    let s1 ← c.segments.get? (i + 1)
    let s0 ← c.segments.get? i
    pure (s1.1 - s0.1)

/-- The tail of `LinearParamCurve::get` after the segment index is chosen:
`self.segment(idx).get_percent((t - self.segment_start(idx)) / self.segment_length(idx))`. -/
def evalSegment [Add P] [Sub P] [HMul P ℚ P]
    (c : LinearParamCurve P) (t : ℚ) (i : ℕ) : Option P := do
  let ts ← c.segment_start i
  let len ← c.segment_length i
  let seg ← (c.segments.get? i).map Prod.snd
  pure (seg.get_percent ((t - ts) / len))

/-- `impl AsParamCurve for LinearParamCurve`, `get(t)`: clamp `t` to
`[0, 1]`, panic on an empty segment list, binary-search the start times,
and on a miss use `(i - 1).max(0)`.  The subtraction `i - 1` is on
`usize`: when the search misses below the first start time (`Err(0)`) it
underflows — a panic in debug builds, and a wrap to `usize::MAX` followed
by an out-of-bounds segment index (again a panic) in release builds — so
the `Err(0)` path is modelled as `none`. -/
def get [Add P] [Sub P] [HMul P ℚ P] (c : LinearParamCurve P) (t : ℚ) : Option P :=
  let tc := rclamp t 0 1
  if c.segments.length = 0 then none
  else
    match binarySearchBy (c.segments.map Prod.fst) tc with
    | Except.ok i => c.evalSegment tc i
    | Except.error i => if i = 0 then none else c.evalSegment tc (i - 1)

end LinearParamCurve

/-! ### The binary-search specification -/

/-- Strict sortedness transported to `getD` indexing. -/
lemma sorted_getD {l : List ℚ} (h : l.Pairwise (· < ·)) :
    ∀ i j : ℕ, i < j → j < l.length → l.getD i 0 < l.getD j 0 := by
  intro i j hij hj
  have hi : i < l.length := lt_trans hij hj
  rw [List.getD_eq_get?, List.getD_eq_get?, List.get?_eq_get hi, List.get?_eq_get hj]
  simp only [Option.getD_some]
  exact List.pairwise_iff_get.mp h ⟨i, hi⟩ ⟨j, hj⟩ hij

/-- Loop invariant of `bsGo` (the embedded Rust `binary_search_by` loop):
everything strictly left of `left` compares `Less`, everything at or right
of `right` compares `Greater`.  On `Ok i` the element at `i` equals the
probe; on `Err i` the insertion point `i` splits the list into a strict
prefix below the probe and a strict suffix above it. -/
lemma bsGo_spec (ts : List ℚ) (t : ℚ)
    (hsorted : ∀ i j : ℕ, i < j → j < ts.length → ts.getD i 0 < ts.getD j 0) :
    ∀ fuel left right : ℕ, right ≤ ts.length → left ≤ right → right - left < fuel →
    (∀ k, k < left → ts.getD k 0 < t) →
    (∀ k, right ≤ k → k < ts.length → t < ts.getD k 0) →
    ((∀ i, bsGo ts t fuel left right = Except.ok i →
        left ≤ i ∧ i < right ∧ ts.getD i 0 = t) ∧
     (∀ i, bsGo ts t fuel left right = Except.error i →
        i ≤ ts.length ∧ (∀ k, k < i → ts.getD k 0 < t) ∧
        (∀ k, i ≤ k → k < ts.length → t < ts.getD k 0))) := by
  intro fuel
  induction fuel with
  | zero =>
    intro left right _ _ hf _ _
    omega
  | succ fuel ih =>
    intro left right hlen hlr hf hlo hhi
    rw [bsGo_succ]
    by_cases hlt : left < right
    · rw [if_pos hlt]
      have hm1 : left ≤ left + (right - left) / 2 := Nat.le_add_right _ _
      have hm2 : left + (right - left) / 2 < right := by
        have : (right - left) / 2 < right - left := Nat.div_lt_self (by omega) (by omega)
        omega
      by_cases hv1 : ts.getD (left + (right - left) / 2) 0 < t
      · rw [if_pos hv1]
        have hlo' : ∀ k, k < left + (right - left) / 2 + 1 → ts.getD k 0 < t := by
          intro k hk
          by_cases hkl : k < left
          · exact hlo k hkl
          · rcases Nat.lt_or_ge k (left + (right - left) / 2) with hkm | hkm
            · exact lt_trans (hsorted k _ hkm (by omega)) hv1
            · have hkeq : k = left + (right - left) / 2 := by omega
              rw [hkeq]
              exact hv1
        obtain ⟨A, B⟩ := ih (left + (right - left) / 2 + 1) right hlen (by omega)
          (by omega) hlo' hhi
        constructor
        · intro i hi
          obtain ⟨h1, h2, h3⟩ := A i hi
          exact ⟨by omega, h2, h3⟩
        · exact B
      · rw [if_neg hv1]
        by_cases hv2 : t < ts.getD (left + (right - left) / 2) 0
        · rw [if_pos hv2]
          have hhi' : ∀ k, left + (right - left) / 2 ≤ k → k < ts.length →
              t < ts.getD k 0 := by
            intro k hk1 hk2
            rcases Nat.lt_or_ge k right with hkr | hkr
            · rcases Nat.lt_or_ge (left + (right - left) / 2) k with hmk | hmk
              · exact lt_trans hv2 (hsorted _ k hmk hk2)
              · have hkeq : k = left + (right - left) / 2 := by omega
                rw [hkeq]
                exact hv2
            · exact hhi k hkr hk2
          obtain ⟨A, B⟩ := ih left (left + (right - left) / 2) (by omega) (by omega)
            (by omega) hlo hhi'
          constructor
          · intro i hi
            obtain ⟨h1, h2, h3⟩ := A i hi
            exact ⟨h1, by omega, h3⟩
          · exact B
        · rw [if_neg hv2]
          constructor
          · intro i hi
            injection hi with hi
            subst hi
            exact ⟨hm1, hm2, le_antisymm (le_of_not_lt hv2) (le_of_not_lt hv1)⟩
          · intro i hi
            exact Except.noConfusion hi
    · rw [if_neg hlt]
      constructor
      · intro i hi
        exact Except.noConfusion hi
      · intro i hi
        injection hi with hi
        subst hi
        refine ⟨by omega, hlo, ?_⟩
        intro k hk1 hk2
        exact hhi k (by omega) hk2

/-- `binarySearchBy` on a strictly sorted list, `Ok` case: the hit is
in range and equals the probe. -/
lemma binarySearchBy_ok {ts : List ℚ} {t : ℚ} {i : ℕ}
    (hsorted : ∀ i j : ℕ, i < j → j < ts.length → ts.getD i 0 < ts.getD j 0)
    (h : binarySearchBy ts t = Except.ok i) :
    i < ts.length ∧ ts.getD i 0 = t := by
  obtain ⟨A, _⟩ := bsGo_spec ts t hsorted (ts.length + 1) 0 ts.length
    (le_refl _) (Nat.zero_le _) (by omega)
    (fun k hk => absurd hk (Nat.not_lt_zero k))
    (fun k hk1 hk2 => absurd hk1 (by omega))
  obtain ⟨_, h2, h3⟩ := A i h
  exact ⟨h2, h3⟩

/-- `binarySearchBy` on a strictly sorted list, `Err` case: the insertion
point splits the list into a strict prefix below the probe and a strict
suffix above it. -/
lemma binarySearchBy_error {ts : List ℚ} {t : ℚ} {i : ℕ}
    (hsorted : ∀ i j : ℕ, i < j → j < ts.length → ts.getD i 0 < ts.getD j 0)
    (h : binarySearchBy ts t = Except.error i) :
    i ≤ ts.length ∧ (∀ k, k < i → ts.getD k 0 < t) ∧
    (∀ k, i ≤ k → k < ts.length → t < ts.getD k 0) := by
  obtain ⟨_, B⟩ := bsGo_spec ts t hsorted (ts.length + 1) 0 ts.length
    (le_refl _) (Nat.zero_le _) (by omega)
    (fun k hk => absurd hk (Nat.not_lt_zero k))
    (fun k hk1 hk2 => absurd hk1 (by omega))
  exact B i h

/-! ### Bridging lemmas for curve evaluation -/

section CurveLemmas

variable {P : Type}

lemma tsD_eq (c : LinearParamCurve P) (i : ℕ) (s : ℚ × LinearSegment P)
    (hget : c.segments.get? i = some s) :
    (c.segments.map Prod.fst).getD i 0 = s.1 := by
  rw [List.getD_eq_get?, List.get?_map, hget]
  rfl

lemma segment_length_eq_last (c : LinearParamCurve P) (i : ℕ) (s : ℚ × LinearSegment P)
    (hget : c.segments.get? i = some s) (hi : i = c.segments.length - 1) :
    c.segment_length i = some (1 - s.1) := by
  unfold LinearParamCurve.segment_length
  rw [if_pos hi, hget]
  rfl

lemma segment_length_eq_mid (c : LinearParamCurve P) (i : ℕ)
    (s s' : ℚ × LinearSegment P)
    (hget : c.segments.get? i = some s) (hget' : c.segments.get? (i + 1) = some s')
    (hi : i ≠ c.segments.length - 1) :
    c.segment_length i = some (s'.1 - s.1) := by
  unfold LinearParamCurve.segment_length
  rw [if_neg hi, hget', hget]
  rfl

lemma evalSegment_eq [Add P] [Sub P] [HMul P ℚ P] (c : LinearParamCurve P) (t : ℚ)
    (i : ℕ) (s : ℚ × LinearSegment P) (L : ℚ)
    (hget : c.segments.get? i = some s) (hL : c.segment_length i = some L) :
    c.evalSegment t i = some (s.2.get_percent ((t - s.1) / L)) := by
  unfold LinearParamCurve.evalSegment LinearParamCurve.segment_start
  rw [hget, hL]
  rfl

lemma get_eq_of_ok [Add P] [Sub P] [HMul P ℚ P] (c : LinearParamCurve P) (t : ℚ)
    {i : ℕ} (hne : ¬ c.segments.length = 0)
    (hbs : binarySearchBy (c.segments.map Prod.fst) (rclamp t 0 1) = Except.ok i) :
    c.get t = c.evalSegment (rclamp t 0 1) i := by
  simp only [LinearParamCurve.get]
  rw [if_neg hne, hbs]

lemma get_eq_of_error [Add P] [Sub P] [HMul P ℚ P] (c : LinearParamCurve P) (t : ℚ)
    {i : ℕ} (hne : ¬ c.segments.length = 0) (hi : ¬ i = 0)
    (hbs : binarySearchBy (c.segments.map Prod.fst) (rclamp t 0 1) = Except.error i) :
    c.get t = c.evalSegment (rclamp t 0 1) (i - 1) := by
  simp only [LinearParamCurve.get]
  rw [if_neg hne, hbs]
  simp only [if_neg hi]

end CurveLemmas

/-! ### Helper lemmas about the numeric primitives -/

lemma pi32_pos : 0 < pi32 := by norm_num [pi32]

lemma rclamp_le_max (x mn mx : ℚ) (h : mn ≤ mx) : rclamp x mn mx ≤ mx := by
  unfold rclamp
  split_ifs with h1 h2
  · exact h
  · exact le_refl mx
  · exact le_of_not_lt h2

lemma min_le_rclamp (x mn mx : ℚ) (h : mn ≤ mx) : mn ≤ rclamp x mn mx := by
  unfold rclamp
  split_ifs with h1 h2
  · exact le_refl mn
  · exact h
  · exact le_of_not_lt h1

lemma rclamp_eq_self (x mn mx : ℚ) (h1 : mn ≤ x) (h2 : x ≤ mx) : rclamp x mn mx = x := by
  unfold rclamp
  rw [if_neg (not_lt.mpr h1), if_neg (not_lt.mpr h2)]

lemma rclamp_idem (x mn mx : ℚ) (h : mn ≤ mx) :
    rclamp (rclamp x mn mx) mn mx = rclamp x mn mx :=
  rclamp_eq_self _ _ _ (min_le_rclamp x mn mx h) (rclamp_le_max x mn mx h)

lemma remEuclid_nonneg (a b : ℚ) (hb : 0 < b) : 0 ≤ remEuclid a b := by
  have h1 : ((⌊a / b⌋ : ℤ) : ℚ) ≤ a / b := Int.floor_le _
  have h2 : b * ((⌊a / b⌋ : ℤ) : ℚ) ≤ b * (a / b) :=
    mul_le_mul_of_nonneg_left h1 (le_of_lt hb)
  have h3 : b * (a / b) = a := by
    rw [mul_comm]
    exact div_mul_cancel₀ a (ne_of_gt hb)
  unfold remEuclid
  linarith

lemma remEuclid_lt (a b : ℚ) (hb : 0 < b) : remEuclid a b < b := by
  have h1 : a / b < (⌊a / b⌋ : ℚ) + 1 := Int.lt_floor_add_one _
  have h2 : a < ((⌊a / b⌋ : ℚ) + 1) * b := (div_lt_iff₀ hb).mp h1
  unfold remEuclid
  nlinarith

lemma remEuclid_eq_self (a b : ℚ) (h0 : 0 ≤ a) (h1 : a < b) : remEuclid a b = a := by
  have hb : 0 < b := lt_of_le_of_lt h0 h1
  have hfl : ⌊a / b⌋ = 0 := by
    rw [Int.floor_eq_zero_iff]
    exact ⟨div_nonneg h0 hb.le, (div_lt_one hb).mpr h1⟩
  unfold remEuclid
  rw [hfl]
  push_cast
  ring

lemma two_pi32_pos : 0 < 2 * pi32 := by norm_num [pi32]

/-- The wrapped yaw `remEuclid (a) (2π) - π` always lands in `[-π, π)`. -/
lemma wrap_mem (a : ℚ) :
    -pi32 ≤ remEuclid a (2 * pi32) - pi32 ∧ remEuclid a (2 * pi32) - pi32 < pi32 := by
  have h1 := remEuclid_nonneg a (2 * pi32) two_pi32_pos
  have h2 := remEuclid_lt a (2 * pi32) two_pi32_pos
  constructor <;> linarith

lemma wrap_idem (a : ℚ) :
    remEuclid ((remEuclid a (2 * pi32) - pi32) + pi32) (2 * pi32) - pi32
      = remEuclid a (2 * pi32) - pi32 := by
  have h1 := remEuclid_nonneg a (2 * pi32) two_pi32_pos
  have h2 := remEuclid_lt a (2 * pi32) two_pi32_pos
  have h3 : (remEuclid a (2 * pi32) - pi32) + pi32 = remEuclid a (2 * pi32) := by ring
  rw [h3, remEuclid_eq_self _ _ h1 h2]

/-- `PitchYawClamped.normalize` succeeds exactly when both clamp bounds are
non-negative, and then its value is the component-wise `rclamp`. -/
lemma PitchYawClamped.normalize_eq (x : PitchYawClamped) :
    x.normalize = if 0 ≤ x.clamp_p ∧ 0 ≤ x.clamp_y then
      some { x with p := rclamp x.p (-x.clamp_p) x.clamp_p
                    y := rclamp x.y (-x.clamp_y) x.clamp_y }
    else none := by
  unfold PitchYawClamped.normalize rustClamp
  simp only [neg_le_self_iff]
  by_cases h1 : 0 ≤ x.clamp_p <;> by_cases h2 : 0 ≤ x.clamp_y <;>
    simp [h1, h2]

/-- Whenever `PitchYawClamped.normalize` returns a value, that value lies
within its own clamp bounds and carries the input's clamp bounds
unchanged. -/
lemma normalize_some_bounds (x n : PitchYawClamped) (h : x.normalize = some n) :
    -n.clamp_p ≤ n.p ∧ n.p ≤ n.clamp_p ∧ -n.clamp_y ≤ n.y ∧ n.y ≤ n.clamp_y ∧
    n.clamp_p = x.clamp_p ∧ n.clamp_y = x.clamp_y := by
  rw [PitchYawClamped.normalize_eq] at h
  by_cases hc : 0 ≤ x.clamp_p ∧ 0 ≤ x.clamp_y
  · rw [if_pos hc] at h
    obtain ⟨hcp, hcy⟩ := hc
    have hp : (-x.clamp_p) ≤ x.clamp_p := by linarith
    have hy : (-x.clamp_y) ≤ x.clamp_y := by linarith
    cases h
    exact ⟨min_le_rclamp _ _ _ hp, rclamp_le_max _ _ _ hp,
      min_le_rclamp _ _ _ hy, rclamp_le_max _ _ _ hy, rfl, rfl⟩
  · rw [if_neg hc] at h
    exact absurd h (by simp)

/-- Unfolding `PitchYawClamped.step_toward` to the normalization of the
explicitly-built intermediate value (whose clamp bounds come from
`self`). -/
lemma step_toward_clamped_eq (s target : PitchYawClamped) (dangle : ℚ) :
    s.step_toward target dangle = PitchYawClamped.normalize
      { p := if |(target.sub_pitchyaw s).p| < dangle then target.p
             else s.p + dangle * rsignum (target.sub_pitchyaw s).p
        y := if |(target.sub_pitchyaw s).y| < dangle then target.y
             else s.y + dangle * rsignum (target.sub_pitchyaw s).y
        clamp_p := s.clamp_p
        clamp_y := s.clamp_y } := rfl

/-- Unfolding `LinearStepperPYC.tick` to an explicit `Option.bind`. -/
lemma linear_tick_eq (s : LinearStepper PitchYawClamped) (dt : ℚ) :
    LinearStepperPYC.tick s dt =
      Option.bind (s.current.step_toward s.target (s.speed * dt))
        (fun c => some { s with current := c }) := rfl

/-- Unfolding `SpringStepperPYC.tick` to an explicit `Option.bind` with
the updated velocity spelled out. -/
lemma spring_tick_eq (s : SpringStepper PitchYawClamped Vec2) (dt : ℚ) :
    SpringStepperPYC.tick s dt =
      Option.bind
        (PitchYawClamped.tickDerivative s.current dt
          (s.velocity.add
            (((s.velocity.smul (-s.damping)).add
              (Vec2.mk ((s.target.sub_pitchyaw s.current).mulScalar s.spring).y
                ((s.target.sub_pitchyaw s.current).mulScalar s.spring).p)).smul
              (dt / SPRING_MASS))))
        (fun c => some { s with
          velocity := s.velocity.add
            (((s.velocity.smul (-s.damping)).add
              (Vec2.mk ((s.target.sub_pitchyaw s.current).mulScalar s.spring).y
                ((s.target.sub_pitchyaw s.current).mulScalar s.spring).p)).smul
              (dt / SPRING_MASS))
          current := c }) := rfl

/-! ### Claim theorems: angular types -/

/-- **C4** (amended): `PitchYaw.sub_pitchyaw` has yaw
`(a.y - b.y + π).rem_euclid(2π) - π`, a value lying in the half-open
interval `[-π, π)` (not `(-π, π]` as the claim states — the wrap maps an
exact multiple of `2π` to `-π`, never to `+π`), and pitch `a.p - b.p`;
`PitchYawClamped.sub_pitchyaw` is plain component-wise subtraction on both
axes with no wrap handling (clamp bounds kept from the left operand). -/
theorem c4_sub_pitchyaw_wrap (a b : PitchYaw) (c d : PitchYawClamped) :
    (a.sub_pitchyaw b).y = remEuclid (a.y - b.y + pi32) (2 * pi32) - pi32 ∧
    -pi32 ≤ (a.sub_pitchyaw b).y ∧ (a.sub_pitchyaw b).y < pi32 ∧
    (a.sub_pitchyaw b).p = a.p - b.p ∧
    (c.sub_pitchyaw d).p = c.p - d.p ∧ (c.sub_pitchyaw d).y = c.y - d.y ∧
    (c.sub_pitchyaw d).clamp_p = c.clamp_p ∧ (c.sub_pitchyaw d).clamp_y = c.clamp_y := by
  refine ⟨rfl, ?_, ?_, rfl, rfl, rfl, rfl, rfl⟩
  · exact (wrap_mem (a.y - b.y + pi32)).1
  · exact (wrap_mem (a.y - b.y + pi32)).2

/-- **C4** counterexample to the claim as stated: subtracting yaw `0` from
yaw `π` yields yaw `-π`, which does not lie in the claimed interval
`(-π, π]`. -/
theorem c4_counterexample :
    ((PitchYaw.new pi32 0).sub_pitchyaw (PitchYaw.new 0 0)).y = -pi32 ∧
    ¬ (-pi32 < ((PitchYaw.new pi32 0).sub_pitchyaw (PitchYaw.new 0 0)).y) := by
  constructor
  · show remEuclid (pi32 - 0 + pi32) (2 * pi32) - pi32 = -pi32
    have : pi32 - 0 + pi32 = 2 * pi32 := by ring
    rw [this]
    have hfl : ⌊(2 * pi32) / (2 * pi32)⌋ = 1 := by
      rw [div_self (ne_of_gt two_pi32_pos)]
      exact Int.floor_one
    unfold remEuclid
    rw [hfl]
    push_cast
    ring
  · intro hlt
    have heq : ((PitchYaw.new pi32 0).sub_pitchyaw (PitchYaw.new 0 0)).y = -pi32 := by
      show remEuclid (pi32 - 0 + pi32) (2 * pi32) - pi32 = -pi32
      have : pi32 - 0 + pi32 = 2 * pi32 := by ring
      rw [this]
      have hfl : ⌊(2 * pi32) / (2 * pi32)⌋ = 1 := by
        rw [div_self (ne_of_gt two_pi32_pos)]
        exact Int.floor_one
      unfold remEuclid
      rw [hfl]
      push_cast
      ring
    rw [heq] at hlt
    exact lt_irrefl _ hlt

/-- **C5** (amended): `PitchYaw.normalize` yields pitch in `[-π/2, π/2]`
and yaw in the half-open interval `[-π, π)` (not `(-π, π]` as the claim
states); whenever `PitchYawClamped.normalize` returns a value (it panics
when a clamp bound is negative), that value has pitch in
`[-clamp_p, clamp_p]`, yaw in `[-clamp_y, clamp_y]`, and the clamp bound
fields unchanged. -/
theorem c5_normalize_bounds :
    (∀ x : PitchYaw,
        -(pi32 / 2) ≤ x.normalize.p ∧ x.normalize.p ≤ pi32 / 2 ∧
        -pi32 ≤ x.normalize.y ∧ x.normalize.y < pi32) ∧
    (∀ x n : PitchYawClamped, x.normalize = some n →
        -x.clamp_p ≤ n.p ∧ n.p ≤ x.clamp_p ∧ -x.clamp_y ≤ n.y ∧ n.y ≤ x.clamp_y ∧
        n.clamp_p = x.clamp_p ∧ n.clamp_y = x.clamp_y) := by
  constructor
  · intro x
    have hhalf : -(pi32 / 2) ≤ pi32 / 2 := by norm_num [pi32]
    refine ⟨min_le_rclamp _ _ _ hhalf, rclamp_le_max _ _ _ hhalf, ?_, ?_⟩
    · exact (wrap_mem (x.y + pi32)).1
    · exact (wrap_mem (x.y + pi32)).2
  · intro x n h
    rw [PitchYawClamped.normalize_eq] at h
    by_cases hc : 0 ≤ x.clamp_p ∧ 0 ≤ x.clamp_y
    · rw [if_pos hc] at h
      obtain ⟨hcp, hcy⟩ := hc
      have hp : (-x.clamp_p) ≤ x.clamp_p := by linarith
      have hy : (-x.clamp_y) ≤ x.clamp_y := by linarith
      cases h
      exact ⟨min_le_rclamp _ _ _ hp, rclamp_le_max _ _ _ hp,
        min_le_rclamp _ _ _ hy, rclamp_le_max _ _ _ hy, rfl, rfl⟩
    · rw [if_neg hc] at h
      exact absurd h (by simp)

/-- **C5** witness: a concrete application of `c5_normalize_bounds` with
its `normalize = some _` hypothesis discharged at a concrete input. -/
theorem c5_witness :
    (PitchYawClamped.new_with_clamps 0 2 1 1).normalize
      = some (PitchYawClamped.new_with_clamps 0 1 1 1) ∧
    (-(PitchYawClamped.new_with_clamps 0 2 1 1).clamp_p
        ≤ (PitchYawClamped.new_with_clamps 0 1 1 1).p ∧
      (PitchYawClamped.new_with_clamps 0 1 1 1).p
        ≤ (PitchYawClamped.new_with_clamps 0 2 1 1).clamp_p ∧
      -(PitchYawClamped.new_with_clamps 0 2 1 1).clamp_y
        ≤ (PitchYawClamped.new_with_clamps 0 1 1 1).y ∧
      (PitchYawClamped.new_with_clamps 0 1 1 1).y
        ≤ (PitchYawClamped.new_with_clamps 0 2 1 1).clamp_y ∧
      (PitchYawClamped.new_with_clamps 0 1 1 1).clamp_p
        = (PitchYawClamped.new_with_clamps 0 2 1 1).clamp_p ∧
      (PitchYawClamped.new_with_clamps 0 1 1 1).clamp_y
        = (PitchYawClamped.new_with_clamps 0 2 1 1).clamp_y) :=
  ⟨by decide, c5_normalize_bounds.2 _ _ (by decide)⟩

/-- **C5** counterexample to the claim as stated: normalizing yaw `π`
yields yaw `-π`, which does not lie in the claimed interval `(-π, π]`;
moreover a `PitchYawClamped` with a negative clamp bound panics inside
`f32::clamp` (modelled `none`) instead of producing a value in the
(empty) claimed interval. -/
theorem c5_counterexample :
    (PitchYaw.normalize ⟨0, pi32⟩).y = -pi32 ∧
    ¬ (-pi32 < (PitchYaw.normalize ⟨0, pi32⟩).y) ∧
    (PitchYawClamped.new_with_clamps 0 0 (-1) 1).normalize = none := by
  have heq : (PitchYaw.normalize ⟨0, pi32⟩).y = -pi32 := by
    show remEuclid (pi32 + pi32) (2 * pi32) - pi32 = -pi32
    have h2 : pi32 + pi32 = 2 * pi32 := by ring
    have hfl : ⌊(2 * pi32) / (2 * pi32)⌋ = 1 := by
      rw [div_self (ne_of_gt two_pi32_pos)]
      exact Int.floor_one
    rw [h2]
    unfold remEuclid
    rw [hfl]
    push_cast
    ring
  refine ⟨heq, ?_, by decide⟩
  rw [heq]
  exact lt_irrefl _

/-- **C7**: `normalize` is idempotent for both angular types (for
`PitchYawClamped`, whose `normalize` is fallible in the model because
`f32::clamp` panics on a negative bound, the second application is the
monadic composition: both sides also agree — as diverging computations —
when the first `normalize` panics). -/
theorem c7_normalize_idempotent :
    (∀ x : PitchYaw, x.normalize = x.normalize.normalize) ∧
    (∀ x : PitchYawClamped,
        x.normalize = x.normalize.bind PitchYawClamped.normalize) := by
  constructor
  · intro x
    unfold PitchYaw.normalize
    have hhalf : -(pi32 / 2) ≤ pi32 / 2 := by norm_num [pi32]
    refine congrArg₂ PitchYaw.mk ?_ ?_
    · exact (rclamp_idem _ _ _ hhalf).symm
    · exact (wrap_idem (x.y + pi32)).symm
  · intro x
    rw [PitchYawClamped.normalize_eq x]
    by_cases hc : 0 ≤ x.clamp_p ∧ 0 ≤ x.clamp_y
    · rw [if_pos hc]
      obtain ⟨hcp, hcy⟩ := hc
      have hp : (-x.clamp_p) ≤ x.clamp_p := by linarith
      have hy : (-x.clamp_y) ≤ x.clamp_y := by linarith
      rw [Option.some_bind, PitchYawClamped.normalize_eq]
      simp only [if_pos (And.intro hcp hcy)]
      rw [rclamp_idem _ _ _ hp, rclamp_idem _ _ _ hy]
    · rw [if_neg hc, Option.none_bind]

/-- **C2** (amended): `LinearStepper::set_target` normalizes the incoming
value for both `PitchYaw` and `PitchYawClamped` targets, but
`SpringStepper::<PitchYawClamped, Vec2>::set_target` stores the incoming
value unchanged (a plain assignment, no normalization). -/
theorem c2_set_target_normalizes :
    (∀ (s : LinearStepper PitchYaw) (v : PitchYaw),
        (LinearStepperPY.set_target s v).target = v.normalize) ∧
    (∀ (s : LinearStepper PitchYawClamped) (v : PitchYawClamped),
        (LinearStepperPYC.set_target s v).map (fun s' => s'.target) = v.normalize) ∧
    (∀ (s : SpringStepper PitchYawClamped Vec2) (v : PitchYawClamped),
        (SpringStepperPYC.set_target s v).target = v) := by
  refine ⟨fun s v => rfl, fun s v => ?_, fun s v => rfl⟩
  unfold LinearStepperPYC.set_target
  cases v.normalize <;> rfl

/-- **C2** counterexample to the claim as stated: for a concrete
`SpringStepper<PitchYawClamped, Vec2>` and a non-normalized value
(pitch `2` against clamp bound `1`), the stored target after
`set_target` is the raw value, not `value.normalize()`. -/
theorem c2_counterexample :
    ¬ (some (SpringStepperPYC.set_target
          ⟨PitchYawClamped.new_with_clamps 0 0 1 1,
           PitchYawClamped.new_with_clamps 0 0 1 1, ⟨0, 0⟩, 1, 1⟩
          (PitchYawClamped.new_with_clamps 0 2 1 1)).target
        = (PitchYawClamped.new_with_clamps 0 2 1 1).normalize) := by
  decide

/-- **C9**: each linear-curve constructor fails loudly (panics, modelled
`none`) below its minimum control-point count and succeeds at or above
it: `new` requires at least 1 segment, `continuous_uniform` and
`continuous` require at least 2 points. -/
theorem c9_construction_minimums :
    (∀ segs : List (ℚ × ℚ × ℚ), (LinearParamCurve.new segs).isSome ↔ 1 ≤ segs.length) ∧
    (∀ pts : List ℚ, (LinearParamCurve.continuous_uniform pts).isSome ↔ 2 ≤ pts.length) ∧
    (∀ pts : List (ℚ × ℚ), (LinearParamCurve.continuous pts).isSome ↔ 2 ≤ pts.length) := by
  refine ⟨fun segs => ?_, fun pts => ?_, fun pts => ?_⟩
  · unfold LinearParamCurve.new
    simp only [List.length_map]
    by_cases h : segs.length < 1
    · rw [if_pos h]
      simp only [Option.isSome_none, Bool.false_eq_true, false_iff]
      omega
    · rw [if_neg h]
      simp only [Option.isSome_some, true_iff]
      omega
  · unfold LinearParamCurve.continuous_uniform
    by_cases h : pts.length < 2
    · rw [if_pos h]
      simp only [Option.isSome_none, Bool.false_eq_true, false_iff]
      omega
    · rw [if_neg h]
      simp only [Option.isSome_some, true_iff]
      omega
  · unfold LinearParamCurve.continuous
    by_cases h : pts.length < 2
    · rw [if_pos h]
      simp only [Option.isSome_none, Bool.false_eq_true, false_iff]
      omega
    · rw [if_neg h]
      simp only [Option.isSome_some, true_iff]
      omega

/-- **C1** (code bug witnessed): a curve successfully constructed by `new`
whose first segment starts at `t = 0.5` evaluates fine at `t = 0.75`, but
`get(0.25)` — a non-NaN parameter whose clamped value is smaller than the
first segment's start time — hits `Err(0)` in the binary search and then
computes `(0usize - 1).max(0)`, which panics (debug: subtract overflow;
release: wrap to `usize::MAX` followed by an out-of-bounds segment index).
The panic is modelled as `none`. -/
theorem c1_get_below_first_start_panics :
    (LinearParamCurve.new [((1/2 : ℚ), (0 : ℚ), (1 : ℚ))]).isSome ∧
    (LinearParamCurve.new [((1/2 : ℚ), (0 : ℚ), (1 : ℚ))]).bind
      (fun c => c.get (1/4)) = none ∧
    (LinearParamCurve.new [((1/2 : ℚ), (0 : ℚ), (1 : ℚ))]).bind
      (fun c => c.get (3/4)) = some (1/2) := by
  refine ⟨?_, ?_, ?_⟩ <;>
    norm_num [LinearParamCurve.new, LinearParamCurve.get, rclamp, binarySearchBy,
      bsGo_succ, LinearParamCurve.evalSegment, LinearParamCurve.segment_start,
      LinearParamCurve.segment_length, LinearSegment.get_percent]

/-- **C3**: on a curve whose start times are strictly increasing (the
documented construction invariant) and a parameter whose clamped value is
at or above the first start time, `get` selects the segment whose start
time is the greatest value `≤` the clamped `t` (exact binary-search match
uses that index, a miss uses the insertion point minus one), the segment
length is the gap to the next start (or `1 - start` for the last
segment), and the result is that segment's linear blend
`start + (end - start) * percent` at `percent = (t - seg_start) / seg_len`. -/
theorem c3_get_segment_selection {P : Type} [Add P] [Sub P] [HMul P ℚ P]
    (c : LinearParamCurve P) (t : ℚ)
    (hsort : (c.segments.map Prod.fst).Pairwise (· < ·))
    (hne : c.segments ≠ [])
    (hin : (c.segments.map Prod.fst).getD 0 0 ≤ rclamp t 0 1) :
    ∃ j s, c.segments.get? j = some s ∧
      s.1 ≤ rclamp t 0 1 ∧
      (∀ k s', c.segments.get? k = some s' → s'.1 ≤ rclamp t 0 1 → k ≤ j) ∧
      c.segment_length j = some (if j = c.segments.length - 1 then 1 - s.1
        else (c.segments.map Prod.fst).getD (j + 1) 0 - s.1) ∧
      c.get t = some (s.2.get_percent ((rclamp t 0 1 - s.1) /
        (if j = c.segments.length - 1 then 1 - s.1
         else (c.segments.map Prod.fst).getD (j + 1) 0 - s.1))) := by
  have h0len : 0 < c.segments.length := List.length_pos.mpr hne
  have hlen : (c.segments.map Prod.fst).length = c.segments.length := List.length_map _ _
  have hnz : ¬ c.segments.length = 0 := by omega
  -- the selected index together with its two defining properties
  have hsel : ∃ j, j < c.segments.length ∧
      (c.segments.map Prod.fst).getD j 0 ≤ rclamp t 0 1 ∧
      (∀ k, k < c.segments.length →
        (c.segments.map Prod.fst).getD k 0 ≤ rclamp t 0 1 → k ≤ j) ∧
      c.get t = c.evalSegment (rclamp t 0 1) j := by
    cases hbs : binarySearchBy (c.segments.map Prod.fst) (rclamp t 0 1) with
    | ok i =>
      obtain ⟨hi_lt, hi_eq⟩ := binarySearchBy_ok (sorted_getD hsort) hbs
      rw [hlen] at hi_lt
      refine ⟨i, hi_lt, le_of_eq hi_eq, ?_, get_eq_of_ok c t hnz hbs⟩
      intro k hk hk2
      by_contra hgt
      push_neg at hgt
      have := sorted_getD hsort i k hgt (by omega)
      rw [hi_eq] at this
      exact absurd hk2 (not_le.mpr this)
    | error i =>
      obtain ⟨hile, hbelow, habove⟩ := binarySearchBy_error (sorted_getD hsort) hbs
      rw [hlen] at hile habove
      have hi0 : ¬ i = 0 := by
        intro h0
        subst h0
        exact absurd hin (not_le.mpr (habove 0 (le_refl 0) h0len))
      refine ⟨i - 1, by omega, le_of_lt (hbelow (i - 1) (by omega)), ?_,
        get_eq_of_error c t hnz hi0 hbs⟩
      intro k hk hk2
      by_contra hgt
      push_neg at hgt
      have hik : i ≤ k := by omega
      exact absurd hk2 (not_le.mpr (habove k hik hk))
  obtain ⟨j, hj_lt, hj_le, hj_max, hj_get⟩ := hsel
  have hs : c.segments.get? j = some (c.segments.get ⟨j, hj_lt⟩) := List.get?_eq_get hj_lt
  have hts : (c.segments.map Prod.fst).getD j 0 = (c.segments.get ⟨j, hj_lt⟩).1 :=
    tsD_eq c j _ hs
  have hlenL : c.segment_length j = some (if j = c.segments.length - 1
      then 1 - (c.segments.get ⟨j, hj_lt⟩).1
      else (c.segments.map Prod.fst).getD (j + 1) 0 - (c.segments.get ⟨j, hj_lt⟩).1) := by
    by_cases hlast : j = c.segments.length - 1
    · rw [if_pos hlast]
      exact segment_length_eq_last c j _ hs hlast
    · rw [if_neg hlast]
      have hj1 : j + 1 < c.segments.length := by omega
      have hs' : c.segments.get? (j + 1) = some (c.segments.get ⟨j + 1, hj1⟩) :=
        List.get?_eq_get hj1
      rw [tsD_eq c (j + 1) _ hs']
      exact segment_length_eq_mid c j _ _ hs hs' hlast
  refine ⟨j, c.segments.get ⟨j, hj_lt⟩, hs, ?_, ?_, hlenL, ?_⟩
  · rw [← hts]
    exact hj_le
  · intro k s' hk hk2
    obtain ⟨hkl, _⟩ := List.get?_eq_some.mp hk
    refine hj_max k hkl ?_
    rw [tsD_eq c k s' hk]
    exact hk2
  · rw [hj_get]
    exact evalSegment_eq c _ j _ _ hs hlenL

/-- **C3** witness: a concrete application of `c3_get_segment_selection`
with all hypotheses discharged on a two-segment curve at `t = 3/4`
(the selected segment is the second one, of length `1 - 1/2`, and the
blend evaluates to `15`). -/
theorem c3_witness :
    (((LinearParamCurve.mk [((0 : ℚ), LinearSegment.mk (0 : ℚ) 10),
        ((1/2 : ℚ), LinearSegment.mk (10 : ℚ) 20)]).segments.map
          Prod.fst).Pairwise (· < ·) ∧
      (LinearParamCurve.mk [((0 : ℚ), LinearSegment.mk (0 : ℚ) 10),
        ((1/2 : ℚ), LinearSegment.mk (10 : ℚ) 20)]).segments ≠ [] ∧
      (((LinearParamCurve.mk [((0 : ℚ), LinearSegment.mk (0 : ℚ) 10),
        ((1/2 : ℚ), LinearSegment.mk (10 : ℚ) 20)]).segments.map
          Prod.fst).getD 0 0 ≤ rclamp (3/4) 0 1)) ∧
    (∃ j s, (LinearParamCurve.mk [((0 : ℚ), LinearSegment.mk (0 : ℚ) 10),
        ((1/2 : ℚ), LinearSegment.mk (10 : ℚ) 20)]).segments.get? j = some s ∧
      s.1 ≤ rclamp (3/4) 0 1 ∧
      (∀ k s', (LinearParamCurve.mk [((0 : ℚ), LinearSegment.mk (0 : ℚ) 10),
          ((1/2 : ℚ), LinearSegment.mk (10 : ℚ) 20)]).segments.get? k = some s' →
          s'.1 ≤ rclamp (3/4) 0 1 → k ≤ j) ∧
      (LinearParamCurve.mk [((0 : ℚ), LinearSegment.mk (0 : ℚ) 10),
        ((1/2 : ℚ), LinearSegment.mk (10 : ℚ) 20)]).segment_length j
        = some (if j = (LinearParamCurve.mk [((0 : ℚ), LinearSegment.mk (0 : ℚ) 10),
            ((1/2 : ℚ), LinearSegment.mk (10 : ℚ) 20)]).segments.length - 1 then 1 - s.1
          else ((LinearParamCurve.mk [((0 : ℚ), LinearSegment.mk (0 : ℚ) 10),
            ((1/2 : ℚ), LinearSegment.mk (10 : ℚ) 20)]).segments.map
              Prod.fst).getD (j + 1) 0 - s.1) ∧
      (LinearParamCurve.mk [((0 : ℚ), LinearSegment.mk (0 : ℚ) 10),
        ((1/2 : ℚ), LinearSegment.mk (10 : ℚ) 20)]).get (3/4)
        = some (s.2.get_percent ((rclamp (3/4) 0 1 - s.1) /
          (if j = (LinearParamCurve.mk [((0 : ℚ), LinearSegment.mk (0 : ℚ) 10),
              ((1/2 : ℚ), LinearSegment.mk (10 : ℚ) 20)]).segments.length - 1 then 1 - s.1
           else ((LinearParamCurve.mk [((0 : ℚ), LinearSegment.mk (0 : ℚ) 10),
              ((1/2 : ℚ), LinearSegment.mk (10 : ℚ) 20)]).segments.map
                Prod.fst).getD (j + 1) 0 - s.1)))) :=
  ⟨⟨by norm_num, by simp, by norm_num [rclamp]⟩,
    c3_get_segment_selection _ (3/4) (by norm_num) (by simp) (by norm_num [rclamp])⟩

/-- **C8** (amended): `step_toward(target, dangle)` computes each axis
independently — the axis snaps exactly to the target's coordinate when the
remaining (wrapped for `PitchYaw`, plain for `PitchYawClamped`) delta has
absolute value strictly less than `dangle`, and otherwise moves by exactly
`dangle` in the delta's direction — and then re-normalizes.  When both
axes are within `dangle`, `PitchYaw` returns exactly
`target.normalize()`, while `PitchYawClamped` returns the target's
coordinates re-normalized against the *stepping value's own* clamp bounds;
that equals `target` post-normalization when current and target share
their clamp bounds, but not in general. -/
theorem c8_step_toward_overshoot :
    (∀ (s target : PitchYaw) (dangle : ℚ),
        s.step_toward target dangle = PitchYaw.normalize
          { p := if |(target.sub_pitchyaw s).p| < dangle then target.p
                 else s.p + dangle * rsignum (target.sub_pitchyaw s).p
            y := if |(target.sub_pitchyaw s).y| < dangle then target.y
                 else s.y + dangle * rsignum (target.sub_pitchyaw s).y }) ∧
    (∀ (s target : PitchYaw) (dangle : ℚ),
        |(target.sub_pitchyaw s).y| < dangle → |(target.sub_pitchyaw s).p| < dangle →
        s.step_toward target dangle = target.normalize) ∧
    (∀ (s target : PitchYawClamped) (dangle : ℚ),
        |(target.sub_pitchyaw s).y| < dangle → |(target.sub_pitchyaw s).p| < dangle →
        s.step_toward target dangle = PitchYawClamped.normalize
          { p := target.p, y := target.y, clamp_p := s.clamp_p, clamp_y := s.clamp_y }) ∧
    (∀ (s target : PitchYawClamped) (dangle : ℚ),
        s.clamp_p = target.clamp_p → s.clamp_y = target.clamp_y →
        |(target.sub_pitchyaw s).y| < dangle → |(target.sub_pitchyaw s).p| < dangle →
        s.step_toward target dangle = target.normalize) := by
  refine ⟨fun s target dangle => rfl, fun s target dangle hy hp => ?_,
    fun s target dangle hy hp => ?_, fun s target dangle hcp hcy hy hp => ?_⟩
  · show PitchYaw.normalize
      { p := if |(target.sub_pitchyaw s).p| < dangle then target.p
             else s.p + dangle * rsignum (target.sub_pitchyaw s).p
        y := if |(target.sub_pitchyaw s).y| < dangle then target.y
             else s.y + dangle * rsignum (target.sub_pitchyaw s).y } = target.normalize
    rw [if_pos hp, if_pos hy]
  · rw [step_toward_clamped_eq, if_pos hp, if_pos hy]
  · rw [step_toward_clamped_eq, if_pos hp, if_pos hy, hcp, hcy]

/-- **C8** witness: a concrete application of `c8_step_toward_overshoot`
with the within-`dangle` hypotheses discharged: stepping `(0,0)` toward
`(1/2, 1/2)` with budget `10` returns the normalized target. -/
theorem c8_witness :
    (|((PitchYaw.mk (1/2) (1/2)).sub_pitchyaw (PitchYaw.mk 0 0)).y| < 10 ∧
     |((PitchYaw.mk (1/2) (1/2)).sub_pitchyaw (PitchYaw.mk 0 0)).p| < 10) ∧
    PitchYaw.step_toward (PitchYaw.mk 0 0) (PitchYaw.mk (1/2) (1/2)) 10
      = (PitchYaw.mk (1/2) (1/2)).normalize := by
  have hy : |((PitchYaw.mk (1/2) (1/2)).sub_pitchyaw (PitchYaw.mk 0 0)).y| < 10 := by
    show |remEuclid ((1:ℚ)/2 - 0 + pi32) (2 * pi32) - pi32| < 10
    rw [remEuclid_eq_self ((1:ℚ)/2 - 0 + pi32) (2 * pi32) (by norm_num [pi32])
      (by norm_num [pi32])]
    rw [abs_lt]
    constructor <;> norm_num [pi32]
  have hp : |((PitchYaw.mk (1/2) (1/2)).sub_pitchyaw (PitchYaw.mk 0 0)).p| < 10 := by
    show |(1:ℚ)/2 - 0| < 10
    rw [abs_lt]
    constructor <;> norm_num
  exact ⟨⟨hy, hp⟩, c8_step_toward_overshoot.2.1 _ _ _ hy hp⟩

/-- **C8** counterexample to the claim as stated: stepping a
`PitchYawClamped` with clamp bounds `(1, 1)` toward a target with clamp
bounds `(3, 3)` and pitch `2`, with `dangle = 10` larger than the
remaining per-axis distance, yields pitch `1` (the target's coordinates
re-clamped against the *stepper's* bounds) — not `target`
post-normalization (`target.normalize()` keeps pitch `2`), and not
`target` itself. -/
theorem c8_counterexample :
    |((PitchYawClamped.new_with_clamps 0 2 3 3).sub_pitchyaw
        (PitchYawClamped.new_with_clamps 0 0 1 1)).y| < 10 ∧
    |((PitchYawClamped.new_with_clamps 0 2 3 3).sub_pitchyaw
        (PitchYawClamped.new_with_clamps 0 0 1 1)).p| < 10 ∧
    (PitchYawClamped.new_with_clamps 0 0 1 1).step_toward
        (PitchYawClamped.new_with_clamps 0 2 3 3) 10
      = some (PitchYawClamped.new_with_clamps 0 1 1 1) ∧
    (PitchYawClamped.new_with_clamps 0 2 3 3).normalize
      = some (PitchYawClamped.new_with_clamps 0 2 3 3) ∧
    (PitchYawClamped.new_with_clamps 0 0 1 1).step_toward
        (PitchYawClamped.new_with_clamps 0 2 3 3) 10
      ≠ (PitchYawClamped.new_with_clamps 0 2 3 3).normalize ∧
    (PitchYawClamped.new_with_clamps 0 0 1 1).step_toward
        (PitchYawClamped.new_with_clamps 0 2 3 3) 10
      ≠ some (PitchYawClamped.new_with_clamps 0 2 3 3) := by
  refine ⟨?_, ?_, ?_, ?_, ?_, ?_⟩ <;>
    norm_num [PitchYawClamped.step_toward, PitchYawClamped.sub_pitchyaw,
      PitchYawClamped.new_with_clamps, PitchYawClamped.normalize, rustClamp, rclamp,
      rsignum, abs_lt]

/-- **C10**: after any successfully completing `tick(dt)` of a
`LinearStepper<PitchYawClamped>` or a `SpringStepper<PitchYawClamped, Vec2>`,
the current value lies within its own clamp bounds and its clamp-bound
fields are unchanged from before the tick (both tick paths re-normalize
against the current value's own preserved bounds). -/
theorem c10_clamped_tick_invariant :
    (∀ (s : LinearStepper PitchYawClamped) (dt : ℚ)
        (s' : LinearStepper PitchYawClamped),
        LinearStepperPYC.tick s dt = some s' →
        -s'.current.clamp_p ≤ s'.current.p ∧ s'.current.p ≤ s'.current.clamp_p ∧
        -s'.current.clamp_y ≤ s'.current.y ∧ s'.current.y ≤ s'.current.clamp_y ∧
        s'.current.clamp_p = s.current.clamp_p ∧
        s'.current.clamp_y = s.current.clamp_y) ∧
    (∀ (s : SpringStepper PitchYawClamped Vec2) (dt : ℚ)
        (s' : SpringStepper PitchYawClamped Vec2),
        SpringStepperPYC.tick s dt = some s' →
        -s'.current.clamp_p ≤ s'.current.p ∧ s'.current.p ≤ s'.current.clamp_p ∧
        -s'.current.clamp_y ≤ s'.current.y ∧ s'.current.y ≤ s'.current.clamp_y ∧
        s'.current.clamp_p = s.current.clamp_p ∧
        s'.current.clamp_y = s.current.clamp_y) := by
  constructor
  · intro s dt s' h
    rw [linear_tick_eq, step_toward_clamped_eq] at h
    obtain ⟨c, hn, hc⟩ := Option.bind_eq_some.mp h
    have hs' := Option.some.inj hc
    subst hs'
    obtain ⟨h1, h2, h3, h4, h5, h6⟩ := normalize_some_bounds _ _ hn
    exact ⟨h1, h2, h3, h4, h5, h6⟩
  · intro s dt s' h
    rw [spring_tick_eq] at h
    obtain ⟨c, hn, hc⟩ := Option.bind_eq_some.mp h
    have hs' := Option.some.inj hc
    subst hs'
    obtain ⟨h1, h2, h3, h4, h5, h6⟩ := normalize_some_bounds _ _ hn
    exact ⟨h1, h2, h3, h4, h5, h6⟩

/-- **C10** witness: a concrete application of `c10_clamped_tick_invariant`
with the `tick = some _` hypotheses discharged: a settled stepper
(current = target = origin, clamp bounds `(1, 1)`) ticks to itself. -/
theorem c10_witness :
    (LinearStepperPYC.tick
        ⟨PitchYawClamped.new_with_clamps 0 0 1 1,
         PitchYawClamped.new_with_clamps 0 0 1 1, 1⟩ 1
      = some ⟨PitchYawClamped.new_with_clamps 0 0 1 1,
              PitchYawClamped.new_with_clamps 0 0 1 1, 1⟩) ∧
    (-(PitchYawClamped.new_with_clamps 0 0 1 1).clamp_p
        ≤ (PitchYawClamped.new_with_clamps 0 0 1 1).p ∧
     (PitchYawClamped.new_with_clamps 0 0 1 1).p
        ≤ (PitchYawClamped.new_with_clamps 0 0 1 1).clamp_p ∧
     -(PitchYawClamped.new_with_clamps 0 0 1 1).clamp_y
        ≤ (PitchYawClamped.new_with_clamps 0 0 1 1).y ∧
     (PitchYawClamped.new_with_clamps 0 0 1 1).y
        ≤ (PitchYawClamped.new_with_clamps 0 0 1 1).clamp_y) := by
  have htick : LinearStepperPYC.tick
      ⟨PitchYawClamped.new_with_clamps 0 0 1 1,
       PitchYawClamped.new_with_clamps 0 0 1 1, 1⟩ 1
    = some ⟨PitchYawClamped.new_with_clamps 0 0 1 1,
            PitchYawClamped.new_with_clamps 0 0 1 1, 1⟩ := by
    norm_num [LinearStepperPYC.tick, PitchYawClamped.step_toward,
      PitchYawClamped.sub_pitchyaw, PitchYawClamped.new_with_clamps,
      PitchYawClamped.normalize, rustClamp, rclamp, rsignum]
  refine ⟨htick, ?_⟩
  obtain ⟨h1, h2, h3, h4, _, _⟩ := c10_clamped_tick_invariant.1 _ 1 _ htick
  exact ⟨h1, h2, h3, h4⟩

/-! ### Exact-arithmetic endpoint law for uniformly spaced curves

The spec's endpoint property is claimed bit-for-bit over IEEE-754 `f32`;
the exact-rational idealization below proves the algebraic content
(`get(0)` is the first control point and `get(1)` the last), which is the
strongest form the embedding can settle. -/

lemma cu_facts (pts : List ℚ) (h2 : 2 ≤ pts.length) (c : LinearParamCurve ℚ)
    (hsegs : c.segments = (pts.zip pts.tail).enum.map
      (fun x => ((x.1 : ℚ) / ((pts.length - 1 : ℕ) : ℚ), LinearSegment.mk x.2.1 x.2.2))) :
    c.segments.length = pts.length - 1 ∧
    (∀ i : ℕ, i < pts.length - 1 → ∀ (hpi : i < pts.length) (hpi1 : i + 1 < pts.length),
      c.segments.get? i = some (((i : ℕ) : ℚ) / ((pts.length - 1 : ℕ) : ℚ),
        LinearSegment.mk (pts.get ⟨i, hpi⟩) (pts.get ⟨i + 1, hpi1⟩))) ∧
    (∀ k : ℕ, k < pts.length - 1 → (c.segments.map Prod.fst).getD k 0
      = ((k : ℕ) : ℚ) / ((pts.length - 1 : ℕ) : ℚ)) := by
  have htail : ∀ i : ℕ, pts.tail.get? i = pts.get? (i + 1) := by
    intro i
    cases pts <;> simp [List.get?]
  have hzlen : (pts.zip pts.tail).length = pts.length - 1 := by
    rw [List.length_zip, List.length_tail]
    omega
  have hslen : c.segments.length = pts.length - 1 := by
    rw [hsegs, List.length_map, List.enum_length, hzlen]
  have hseg : ∀ i : ℕ, i < pts.length - 1 → ∀ (hpi : i < pts.length) (hpi1 : i + 1 < pts.length),
      c.segments.get? i = some (((i : ℕ) : ℚ) / ((pts.length - 1 : ℕ) : ℚ),
        LinearSegment.mk (pts.get ⟨i, hpi⟩) (pts.get ⟨i + 1, hpi1⟩)) := by
    intro i hi hpi hpi1
    have hz : (pts.zip pts.tail).get? i = some (pts.get ⟨i, hpi⟩, pts.get ⟨i + 1, hpi1⟩) := by
      rw [List.get?_zip_eq_some]
      refine ⟨List.get?_eq_get hpi, ?_⟩
      rw [htail i]
      exact List.get?_eq_get hpi1
    rw [hsegs, List.get?_map, List.get?_enum, hz]
    rfl
  refine ⟨hslen, hseg, ?_⟩
  intro k hk
  exact tsD_eq c k _ (hseg k hk (by omega) (by omega))

lemma cu_get_zero (pts : List ℚ) (h2 : 2 ≤ pts.length) (c : LinearParamCurve ℚ)
    (hsegs : c.segments = (pts.zip pts.tail).enum.map
      (fun x => ((x.1 : ℚ) / ((pts.length - 1 : ℕ) : ℚ), LinearSegment.mk x.2.1 x.2.2))) :
    c.get 0 = some (pts.getD 0 0) := by
  obtain ⟨hslen, hseg, hstD⟩ := cu_facts pts h2 c hsegs
  have hmaplen : (c.segments.map Prod.fst).length = pts.length - 1 := by
    rw [List.length_map, hslen]
  have hnpos : (0 : ℚ) < ((pts.length - 1 : ℕ) : ℚ) := by
    have h1 : 1 ≤ pts.length - 1 := by omega
    exact_mod_cast Nat.lt_of_lt_of_le Nat.zero_lt_one h1
  have hsorted : ∀ i j : ℕ, i < j → j < (c.segments.map Prod.fst).length →
      (c.segments.map Prod.fst).getD i 0 < (c.segments.map Prod.fst).getD j 0 := by
    intro i j hij hj
    rw [hmaplen] at hj
    rw [hstD i (by omega), hstD j hj]
    rw [div_lt_div_iff_of_pos_right hnpos]
    exact_mod_cast hij
  have hcl : rclamp (0 : ℚ) 0 1 = 0 := by norm_num [rclamp]
  have hne : ¬ c.segments.length = 0 := by omega
  have hst0 : (c.segments.map Prod.fst).getD 0 0 = 0 := by
    rw [hstD 0 (by omega)]
    simp
  cases hbs : binarySearchBy (c.segments.map Prod.fst) (rclamp (0 : ℚ) 0 1) with
  | error i =>
    have hbs2 := hbs
    rw [hcl] at hbs2
    obtain ⟨hile, hbelow, habove⟩ := binarySearchBy_error hsorted hbs2
    by_cases hi0 : i = 0
    · subst hi0
      have hcontra := habove 0 (le_refl 0) (by rw [hmaplen]; omega)
      rw [hst0] at hcontra
      exact absurd hcontra (lt_irrefl 0)
    · have hcontra := hbelow 0 (by omega)
      rw [hst0] at hcontra
      exact absurd hcontra (lt_irrefl 0)
  | ok j =>
    have hbs2 := hbs
    rw [hcl] at hbs2
    obtain ⟨hj_lt, hj_eq⟩ := binarySearchBy_ok hsorted hbs2
    rw [hmaplen] at hj_lt
    have hj0 : j = 0 := by
      by_contra hj0
      have hlt := hsorted 0 j (by omega) (by rw [hmaplen]; omega)
      rw [hj_eq, hst0] at hlt
      exact absurd hlt (lt_irrefl 0)
    subst hj0
    have hgeteq : c.get 0 = c.evalSegment (rclamp 0 0 1) 0 := get_eq_of_ok c 0 hne hbs
    have hp0 : (0 : ℕ) < pts.length := by omega
    have hp1 : 0 + 1 < pts.length := by omega
    have hs0 := hseg 0 (by omega) hp0 hp1
    obtain ⟨L, hL⟩ : ∃ L, c.segment_length 0 = some L := by
      by_cases hlast : 0 = c.segments.length - 1
      · exact ⟨_, segment_length_eq_last c 0 _ hs0 hlast⟩
      · have h11 : 0 + 1 < pts.length - 1 := by omega
        have hs1 := hseg 1 (by omega) (by omega) (by omega)
        exact ⟨_, segment_length_eq_mid c 0 _ _ hs0 hs1 hlast⟩
    rw [hgeteq, evalSegment_eq c _ 0 _ L hs0 hL, hcl]
    unfold LinearSegment.get_percent
    rw [List.getD_eq_get?, List.get?_eq_get hp0]
    simp

lemma cu_get_one (pts : List ℚ) (h2 : 2 ≤ pts.length) (c : LinearParamCurve ℚ)
    (hsegs : c.segments = (pts.zip pts.tail).enum.map
      (fun x => ((x.1 : ℚ) / ((pts.length - 1 : ℕ) : ℚ), LinearSegment.mk x.2.1 x.2.2))) :
    c.get 1 = some (pts.getD (pts.length - 1) 0) := by
  obtain ⟨hslen, hseg, hstD⟩ := cu_facts pts h2 c hsegs
  have hmaplen : (c.segments.map Prod.fst).length = pts.length - 1 := by
    rw [List.length_map, hslen]
  have hnpos : (0 : ℚ) < ((pts.length - 1 : ℕ) : ℚ) := by
    have h1 : 1 ≤ pts.length - 1 := by omega
    exact_mod_cast Nat.lt_of_lt_of_le Nat.zero_lt_one h1
  have hsorted : ∀ i j : ℕ, i < j → j < (c.segments.map Prod.fst).length →
      (c.segments.map Prod.fst).getD i 0 < (c.segments.map Prod.fst).getD j 0 := by
    intro i j hij hj
    rw [hmaplen] at hj
    rw [hstD i (by omega), hstD j hj]
    rw [div_lt_div_iff_of_pos_right hnpos]
    exact_mod_cast hij
  have hcl : rclamp (1 : ℚ) 0 1 = 1 := by norm_num [rclamp]
  have hne : ¬ c.segments.length = 0 := by omega
  have hstD_lt1 : ∀ k : ℕ, k < pts.length - 1 → (c.segments.map Prod.fst).getD k 0 < 1 := by
    intro k hk
    rw [hstD k hk, div_lt_one hnpos]
    exact_mod_cast hk
  cases hbs : binarySearchBy (c.segments.map Prod.fst) (rclamp (1 : ℚ) 0 1) with
  | ok j =>
    have hbs2 := hbs
    rw [hcl] at hbs2
    obtain ⟨hj_lt, hj_eq⟩ := binarySearchBy_ok hsorted hbs2
    rw [hmaplen] at hj_lt
    have hcontra := hstD_lt1 j hj_lt
    rw [hj_eq] at hcontra
    exact absurd hcontra (lt_irrefl 1)
  | error i =>
    have hbs2 := hbs
    rw [hcl] at hbs2
    obtain ⟨hile, hbelow, habove⟩ := binarySearchBy_error hsorted hbs2
    rw [hmaplen] at hile
    have hi_ge : pts.length - 1 ≤ i := by
      by_contra hlt
      push_neg at hlt
      have hcontra := habove i (le_refl i) (by rw [hmaplen]; omega)
      have hlt1 := hstD_lt1 i (by omega)
      linarith
    have hi0 : ¬ i = 0 := by omega
    have hgeteq : c.get 1 = c.evalSegment (rclamp 1 0 1) (i - 1) :=
      get_eq_of_error c 1 hne hi0 hbs
    have hj : i - 1 = pts.length - 2 := by omega
    have hjp : pts.length - 2 < pts.length := by omega
    have hjp1 : pts.length - 2 + 1 < pts.length := by omega
    have hsj := hseg (pts.length - 2) (by omega) hjp hjp1
    have hlast : pts.length - 2 = c.segments.length - 1 := by omega
    have hL := segment_length_eq_last c _ _ hsj hlast
    rw [hgeteq, hj, evalSegment_eq c _ _ _ _ hsj hL, hcl]
    have ht0 : ((pts.length - 2 : ℕ) : ℚ) / ((pts.length - 1 : ℕ) : ℚ) < 1 := by
      rw [div_lt_one hnpos]
      exact_mod_cast (by omega : pts.length - 2 < pts.length - 1)
    have hLne : (1 : ℚ) - ((pts.length - 2 : ℕ) : ℚ) / ((pts.length - 1 : ℕ) : ℚ) ≠ 0 := by
      intro hzero
      rw [sub_eq_zero] at hzero
      rw [← hzero] at ht0
      exact absurd ht0 (lt_irrefl 1)
    unfold LinearSegment.get_percent
    rw [div_self hLne]
    have hidx : (⟨pts.length - 2 + 1, hjp1⟩ : Fin pts.length)
        = ⟨pts.length - 1, by omega⟩ := by
      simp only [Fin.mk.injEq]
      omega
    rw [hidx, List.getD_eq_get?, List.get?_eq_get (by omega : pts.length - 1 < pts.length)]
    simp

/-- Under exact arithmetic, a `continuous_uniform` curve from at least two
control points evaluates to the first control point at `t = 0` and to the
last control point at `t = 1`. -/
theorem continuous_uniform_endpoints_exact (pts : List ℚ) (h2 : 2 ≤ pts.length) :
    ∃ c, LinearParamCurve.continuous_uniform pts = some c ∧
      c.get 0 = some (pts.getD 0 0) ∧
      c.get 1 = some (pts.getD (pts.length - 1) 0) := by
  refine ⟨⟨(pts.zip pts.tail).enum.map
      (fun x => ((x.1 : ℚ) / ((pts.length - 1 : ℕ) : ℚ), LinearSegment.mk x.2.1 x.2.2))⟩,
    ?_, cu_get_zero pts h2 _ rfl, cu_get_one pts h2 _ rfl⟩
  unfold LinearParamCurve.continuous_uniform
  rw [if_neg (by omega)]

end BevyUtil
